import Mathlib

/-!
# Verification of the trafico GraphQL resource-name extractor

Shallow embedding of the core pipeline of `main.go` (package `trafico`):
comment stripping, whitespace normalization, operation-block discovery,
brace-balanced block isolation, and the three-tier root-field extractor.

Documents are modelled as `List Char`.  All claim-relevant inputs are
ASCII, where Go's byte-wise scanning (`extractBalancedBlock`), rune-wise
scanning (`simplifyToRootLevel`) and the regexp engine's rune handling
coincide with character-list scanning.  Each Go regular expression used by
the source is a small fixed pattern; its RE2 leftmost-first, non-overlapping
find-all semantics is embedded directly as a scanning function.
-/

/-- Character class of Go regexp `\s`, namely `[\t\n\f\r ]`. -/
def isSpaceRe (c : Char) : Bool :=
  c == ' ' || c == '\t' || c == '\n' || c == '\r' || c == Char.ofNat 12

/-- Whitespace trimmed by Go's `strings.TrimSpace` (ASCII part:
`\t\n\v\f\r` and space). -/
def isSpaceTrim (c : Char) : Bool :=
  isSpaceRe c || c == Char.ofNat 11

/-- Character class of Go regexp `\w`, namely `[0-9A-Za-z_]`. -/
def isWordChar (c : Char) : Bool :=
  (decide (65 ≤ c.toNat) && decide (c.toNat ≤ 90)) ||
  (decide (97 ≤ c.toNat) && decide (c.toNat ≤ 122)) ||
  (decide (48 ≤ c.toNat) && decide (c.toNat ≤ 57)) ||
  c == '_'

/-- ASCII lower-casing, as applied by `strings.ToLower` and by the `(?i)`
flag on the ASCII keywords involved. -/
def asciiLower (c : Char) : Char :=
  if 65 ≤ c.toNat ∧ c.toNat ≤ 90 then Char.ofNat (c.toNat + 32) else c

/-- `removeComments` (Go: `regexp.MustCompile("#[^\n]*").ReplaceAllString(query, "")`):
drop every region from a `#` up to, but excluding, the next newline.
The Boolean state records whether the scan is currently inside a comment. -/
def removeCommentsGo : List Char → Bool → List Char
  | [], _ => []
  | c :: rest, true =>
    if c = '\n' then c :: removeCommentsGo rest false else removeCommentsGo rest true
  | c :: rest, false =>
    if c = '#' then removeCommentsGo rest true else c :: removeCommentsGo rest false

/-- `removeComments` from the source. -/
def removeComments (query : List Char) : List Char :=
  removeCommentsGo query false

/-- Go: `regexp.MustCompile("\\s+").ReplaceAllString(query, " ")`: each maximal
run of `\s` characters becomes a single space.  The Boolean state records
whether the previous character belonged to a whitespace run. -/
def collapseWsGo : List Char → Bool → List Char
  | [], _ => []
  | c :: rest, inWs =>
    if isSpaceRe c then
      if inWs then collapseWsGo rest true else ' ' :: collapseWsGo rest true
    else c :: collapseWsGo rest false

/-- Whitespace collapsing pass of `extractRootFieldsFromOperation`. -/
def collapseWs (query : List Char) : List Char :=
  collapseWsGo query false

/-- Go `strings.TrimSpace`. -/
def trimSpace (s : List Char) : List Char :=
  ((s.dropWhile isSpaceTrim).reverse.dropWhile isSpaceTrim).reverse

/-- Whitespace normalization performed at the top of
`extractRootFieldsFromOperation`: collapse `\s+` runs to one space, then trim. -/
def normalizeQ (query : List Char) : List Char :=
  trimSpace (collapseWs query)

/-- The reserved-word table of `isGraphQLKeyword`. -/
def graphQLKeywords : List (List Char) :=
  ["query".data, "mutation".data, "subscription".data, "fragment".data,
   "on".data, "true".data, "false".data, "null".data, "type".data,
   "input".data, "interface".data, "union".data, "enum".data, "scalar".data,
   "schema".data, "extend".data, "implements".data, "directive".data]

/-- `isGraphQLKeyword` from the source: case-insensitive membership in the
reserved-word table (Go lower-cases with `strings.ToLower` before lookup). -/
def isGraphQLKeyword (w : List Char) : Bool :=
  graphQLKeywords.contains (w.map asciiLower)

/-- The guard applied to every candidate field name in all three tiers of
`parseRootFields` (Go: `!isGraphQLKeyword(fieldName) && !strings.HasPrefix(fieldName, "@")`). -/
def fieldOk (w : List Char) : Bool :=
  !isGraphQLKeyword w && !(w.head? == some '@')

/-- Index of the first occurrence of `c` in `l` (Go `strings.Index` for a
one-character needle). -/
def findCharIdx (c : Char) : List Char → Option Nat
  | [] => none
  | x :: rest => if x = c then some 0 else (findCharIdx c rest).map (· + 1)

/-- First index `j ≥ i` with `s[j] = c`. -/
def firstIdxFrom (s : List Char) (c : Char) (i : Nat) : Option Nat :=
  (findCharIdx c (s.drop i)).map (· + i)

/-- Index just past the maximal run of `\s` characters starting at `i`. -/
def skipWs (s : List Char) (i : Nat) : Nat :=
  i + ((s.drop i).takeWhile isSpaceRe).length

/-- The scanning loop of `extractBalancedBlock`, entered just after the
opening brace with `braceCount = d`.  State: nesting depth `d` (Go `int`),
`inStr` ("inside a double-quoted string"), `esc` ("previous character was an
unescaped backslash").  Returns the characters strictly before the brace that
closes the block, or `none` if the text ends first.  Each processed character
is kept, mirroring that Go returns the contiguous slice `query[start+1 : i]`. -/
def ebbGo : List Char → Int → Bool → Bool → Option (List Char)
  | [], _, _, _ => none
  | c :: rest, d, inStr, esc =>
    if esc then (ebbGo rest d inStr false).map (c :: ·)
    else if c = '\\' then (ebbGo rest d inStr true).map (c :: ·)
    else if c = '"' then (ebbGo rest d (!inStr) false).map (c :: ·)
    else if inStr then (ebbGo rest d inStr false).map (c :: ·)
    else if c = '{' then (ebbGo rest (d + 1) inStr false).map (c :: ·)
    else if c = '}' then
      if d - 1 = 0 then some [] else (ebbGo rest (d - 1) inStr false).map (c :: ·)
    else (ebbGo rest d inStr false).map (c :: ·)

/-- `extractBalancedBlock` from the source: find the first `{` at or after
`startPos`; scan forward with the string- and escape-aware counter; return
the content strictly between the outer braces, or `[]` when no `{` exists or
the text ends before the counter returns to zero.  (Go processes the opening
brace itself as the first loop iteration, taking the counter from 0 to 1;
here the loop starts one character later in that same state.) -/
def extractBalancedBlock (s : List Char) (startPos : Nat) : List Char :=
  match firstIdxFrom s '{' startPos with
  | none => []
  | some b =>
    match ebbGo (s.drop (b + 1)) 1 false false with
    | none => []
    | some inner => inner

/-- Reference depth scan used to state brace balance: same string- and
escape-awareness as `extractBalancedBlock`, starting at depth `d`; `true`
iff the scan never sees a `}` at depth 0 and ends back at depth 0 — i.e.
every counted `{` is matched by a `}`. -/
def balGo : List Char → Int → Bool → Bool → Bool
  | [], d, _, _ => decide (d = 0)
  | c :: rest, d, inStr, esc =>
    if esc then balGo rest d inStr false
    else if c = '\\' then balGo rest d inStr true
    else if c = '"' then balGo rest d (!inStr) false
    else if inStr then balGo rest d inStr false
    else if c = '{' then balGo rest (d + 1) inStr false
    else if c = '}' then
      if d = 0 then false else balGo rest (d - 1) inStr false
    else balGo rest d inStr false

/-- A text has balanced braces when every `{` counted outside string
literals is matched by a `}`. -/
def bracesBalanced (s : List Char) : Bool :=
  balGo s 0 false false

/-- The three operation kinds handled by `findOperationBlocks`. -/
inductive OpKind
  | query
  | mutation
  | anonymous
  deriving DecidableEq

/-- Keyword characters of a named operation kind. -/
def opKeyword : OpKind → List Char
  | OpKind.query => "query".data
  | OpKind.mutation => "mutation".data
  | OpKind.anonymous => []

/-- One attempted match of the named-operation pattern
`(?i)\b<kw>\s+\w+[^{]*\{` at position `p`: a word boundary, the keyword
case-insensitively, at least one `\s`, at least one `\w` (the mandatory
operation-name character), then — since `[^{]*` cannot cross a brace — the
first `{` after the name ends the match.  Returns the end position. -/
def matchNamedAt (s kw : List Char) (p : Nat) : Option Nat :=
  if (p = 0 ∨ (s.get? (p - 1)).all (fun c => !isWordChar c)) ∧
     ((s.drop p).take kw.length).map asciiLower = kw then
    let q := p + kw.length
    let wsLen := ((s.drop q).takeWhile isSpaceRe).length
    if 1 ≤ wsLen then
      let wLen := ((s.drop (q + wsLen)).takeWhile isWordChar).length
      if 1 ≤ wLen then
        match firstIdxFrom s '{' (q + wsLen + wLen) with
        | some b => some (b + 1)
        | none => none
      else none
    else none
  else none

/-- `FindAllStringIndex(-1)` start positions for the named-operation
pattern: leftmost matches, resuming after each match's end (fuel-indexed;
the fuel `s.length + 1` always suffices since positions strictly increase). -/
def scanNamed (s kw : List Char) : Nat → Nat → List Nat
  | 0, _ => []
  | fuel + 1, p =>
    if s.length ≤ p then []
    else
      match matchNamedAt s kw p with
      | some e => p :: scanNamed s kw fuel e
      | none => scanNamed s kw fuel (p + 1)

/-- All match start positions of `(?i)\b<kw>\s+\w+[^{]*\{` in `s`. -/
def findAllNamedStarts (s kw : List Char) : List Nat :=
  scanNamed s kw (s.length + 1) 0

/-- Match start positions of the anonymous pattern `^\s*\{` (anchored at the
start of the text, so at most one match, starting at position 0): the text
must open with a `\s` run followed directly by `{`. -/
def anonMatches (s : List Char) : List Nat :=
  if s.get? (skipWs s 0) = some '{' then [0] else []

/-- Go: `strings.HasPrefix(strings.TrimSpace(query), "{")`. -/
def trimmedStartsWithBrace (s : List Char) : Bool :=
  (trimSpace s).head? == some '{'

/-- Match start positions used by `findOperationBlocks` for one kind. -/
def fobStarts (q : List Char) (k : OpKind) : List Nat :=
  if k = OpKind.anonymous then anonMatches q else findAllNamedStarts q (opKeyword k)

/-- One iteration of the `findOperationBlocks` loop: append the balanced
block of every pattern match (dropping empty results), then — only for
`anonymous`, and only when the accumulated block list is still empty — fall
back to treating the whole query as the block when it starts with `{`. -/
def fobBlocks2 (q : List Char) (k : OpKind) (blocks : List (List Char)) : List (List Char) :=
  blocks ++ (fobStarts q k).filterMap (fun p =>
    if extractBalancedBlock q p = [] then none else some (extractBalancedBlock q p))

/-- Second half of one `findOperationBlocks` iteration: the anonymous
whole-query fallback. -/
def fobStep (q : List Char) (k : OpKind) (blocks : List (List Char)) : List (List Char) :=
  if k = OpKind.anonymous ∧ fobBlocks2 q k blocks = [] ∧ trimmedStartsWithBrace q = true
  then fobBlocks2 q k blocks ++ [q] else fobBlocks2 q k blocks

/-- Loop of `findOperationBlocks` over the requested kinds. -/
def fobGo (q : List Char) : List OpKind → List (List Char) → List (List Char)
  | [], blocks => blocks
  | k :: rest, blocks => fobGo q rest (fobStep q k blocks)

/-- `findOperationBlocks` from the source. -/
def findOperationBlocks (q : List Char) (opTypes : List OpKind) : List (List Char) :=
  fobGo q opTypes []

/-- One attempted match of the tier-1 pattern
`(?m)(\w+)(?:\s*\([^)]*\))?\s*\{[^}]*\}` at position `p`.  The leading `\w+`
run is the captured field name.  The optional argument-list group, when a
`(` follows the optional whitespace, must close at the first `)` (its body
cannot cross one); the regex then requires a `{` after optional whitespace
and closes at the first `}`.  When the `(` is present the group-absent
alternative cannot succeed (the required `{` would sit where the `(` is),
and shortening the greedy `\w+` leaves a word character where `{` is
required, so this case analysis is exhaustive.  Returns the captured name
and the end position of the whole match. -/
def tier1MatchAt (s : List Char) (p : Nat) : Option (List Char × Nat) :=
  let w := (s.drop p).takeWhile isWordChar
  if w = [] then none
  else
    let q1 := skipWs s (p + w.length)
    if s.get? q1 = some '(' then
      match firstIdxFrom s ')' (q1 + 1) with
      | none => none
      | some r =>
        let q2 := skipWs s (r + 1)
        if s.get? q2 = some '{' then
          match firstIdxFrom s '}' (q2 + 1) with
          | none => none
          | some e => some (w, e + 1)
        else none
    else
      if s.get? q1 = some '{' then
        match firstIdxFrom s '}' (q1 + 1) with
        | none => none
        | some e => some (w, e + 1)
      else none

/-- Tier-1 find-all loop: leftmost matches, resuming after each match, the
keyword/directive guard applied to each captured name as in the Go loop
body. -/
def tier1Go (s : List Char) : Nat → Nat → List (List Char)
  | 0, _ => []
  | fuel + 1, p =>
    if s.length ≤ p then []
    else
      match tier1MatchAt s p with
      | some (w, e) =>
        if fieldOk w then w :: tier1Go s fuel e else tier1Go s fuel e
      | none => tier1Go s fuel (p + 1)

/-- Tier 1 of `parseRootFields` (the strict pattern pass). -/
def tier1Fields (s : List Char) : List (List Char) :=
  tier1Go s (s.length + 1) 0

/-- Go `strings.Split(s, "\n")`. -/
def splitOnNl : List Char → List (List Char)
  | [] => [[]]
  | c :: rest =>
    if c = '\n' then [] :: splitOnNl rest
    else
      match splitOnNl rest with
      | [] => [[c]]
      | l :: ls => (c :: l) :: ls

/-- Leading `\w+` capture of the anchored line pattern
`^(\w+)(?:\s*\([^)]*\))?` (the optional argument-list group cannot change
the captured name). -/
def lineLeadWord (line : List Char) : Option (List Char) :=
  let w := line.takeWhile isWordChar
  if w = [] then none else some w

/-- Tier-2 loop of `parseRootFields`: per line, trim; skip blank and `#`
lines; when the running brace level is 0, take the line's leading
identifier (subject to the guard); then add the line's `{` count minus its
`}` count to the level. -/
def tier2Go : List (List Char) → Int → List (List Char)
  | [], _ => []
  | line :: rest, lvl =>
    let l := trimSpace line
    if l = [] ∨ l.head? = some '#' then tier2Go rest lvl
    else
      let opens : Int := l.countP (fun c => c == '{')
      let closes : Int := l.countP (fun c => c == '}')
      let here := if lvl = 0 then
          match lineLeadWord l with
          | some w => if fieldOk w then [w] else []
          | none => []
        else []
      here ++ tier2Go rest (lvl + opens - closes)

/-- Tier 2 of `parseRootFields` (the line-scan pass). -/
def tier2Fields (s : List Char) : List (List Char) :=
  tier2Go (splitOnNl s) 0

/-- `simplifyToRootLevel` loop: `{` raises the level and is replaced by a
space exactly when it raises it to 1; `}` lowers the level and is replaced
by a space exactly when it lowers it to 0; all other characters are kept
only at level 0.  The level is a Go `int` and may go negative. -/
def simpGo : List Char → Int → List Char
  | [], _ => []
  | c :: rest, lvl =>
    if c = '{' then
      if lvl + 1 = 1 then ' ' :: simpGo rest (lvl + 1) else simpGo rest (lvl + 1)
    else if c = '}' then
      if lvl - 1 = 0 then ' ' :: simpGo rest (lvl - 1) else simpGo rest (lvl - 1)
    else if lvl = 0 then c :: simpGo rest lvl
    else simpGo rest lvl

/-- `simplifyToRootLevel` from the source. -/
def simplifyToRootLevel (block : List Char) : List Char :=
  simpGo block 0

/-- One attempted match of the tier-3 pattern `(\w+)(?:\s*\([^)]*\))?` at
position `p`: the `\w+` run is the name; the whole match extends over a
following parenthesized group when one is present and closes (else the
optional group is absent and the match is just the name). -/
def tier3MatchAt (s : List Char) (p : Nat) : Option (List Char × Nat) :=
  let w := (s.drop p).takeWhile isWordChar
  if w = [] then none
  else
    let q := p + w.length
    let q1 := skipWs s q
    let e := if s.get? q1 = some '(' then
        match firstIdxFrom s ')' (q1 + 1) with
        | some r => r + 1
        | none => q
      else q
    some (w, e)

/-- Tier-3 find-all loop with the same guard. -/
def tier3Go (s : List Char) : Nat → Nat → List (List Char)
  | 0, _ => []
  | fuel + 1, p =>
    if s.length ≤ p then []
    else
      match tier3MatchAt s p with
      | some (w, e) =>
        if fieldOk w then w :: tier3Go s fuel e else tier3Go s fuel e
      | none => tier3Go s fuel (p + 1)

/-- Tier 3 of `parseRootFields` (the depth-collapse pass): extract every
identifier of the simplified block. -/
def tier3Fields (s : List Char) : List (List Char) :=
  let s2 := simplifyToRootLevel s
  tier3Go s2 (s2.length + 1) 0

/-- `parseRootFields` from the source: tier 1; if it produced nothing,
tier 2; if still nothing, tier 3. -/
def parseRootFields (block : List Char) : List (List Char) :=
  let fields := tier1Fields block
  let fields2 := if fields = [] then tier2Fields block else fields
  if fields2 = [] then tier3Fields block else fields2

/-- `extractRootFieldsFromOperation` from the source: normalize whitespace,
locate the operation blocks of the requested kind (`query` also scans
`anonymous`; `mutation` scans only `mutation`), and concatenate each
block's root fields in order. -/
def extractRootFieldsFromOperation (query : List Char) (opType : OpKind) : List (List Char) :=
  let q := normalizeQ query
  let blocks :=
    if opType = OpKind.query then findOperationBlocks q [OpKind.query, OpKind.anonymous]
    else if opType = OpKind.mutation then findOperationBlocks q [OpKind.mutation]
    else []
  blocks.foldl (fun fields b => fields ++ parseRootFields b) []

/-- `extractResourceNames` from the source: strip comments, then extract
the root fields of the query operations and of the mutation operations. -/
def extractResourceNames (query : List Char) : List (List Char) × List (List Char) :=
  let q := removeComments query
  (extractRootFieldsFromOperation q OpKind.query,
   extractRootFieldsFromOperation q OpKind.mutation)

/-- The external interface of the core (spec section 6): `extract` on a
document, at `String` level. -/
def extract (doc : String) : List String × List String :=
  let r := extractResourceNames doc.data
  (r.1.map (fun w => String.mk w), r.2.map (fun w => String.mk w))

/-! ## Helper lemmas -/

theorem findCharIdx_eq_none {c : Char} {l : List Char} (h : c ∉ l) :
    findCharIdx c l = none := by
  induction l with
  | nil => rfl
  | cons x rest ih =>
    have hx : ¬ x = c := fun he => h (he ▸ List.mem_cons_self x rest)
    have hr : c ∉ rest := fun hm => h (List.mem_cons_of_mem x hm)
    simp [findCharIdx, hx, ih hr]

theorem firstIdxFrom_eq_none {s : List Char} {c : Char} {i : Nat}
    (h : c ∉ s.drop i) : firstIdxFrom s c i = none := by
  simp [firstIdxFrom, findCharIdx_eq_none h]

theorem mem_removeCommentsGo {x : Char} : ∀ {l : List Char} {b : Bool},
    x ∈ removeCommentsGo l b → x ∈ l := by
  intro l
  induction l with
  | nil => intro b h; simp [removeCommentsGo] at h
  | cons c rest ih =>
    intro b h
    cases b with
    | true =>
      by_cases hc : c = '\n'
      · rw [removeCommentsGo, if_pos hc] at h
        rcases List.mem_cons.mp h with h1 | h2
        · exact h1 ▸ List.mem_cons_self c rest
        · exact List.mem_cons_of_mem c (ih h2)
      · rw [removeCommentsGo, if_neg hc] at h
        exact List.mem_cons_of_mem c (ih h)
    | false =>
      by_cases hc : c = '#'
      · rw [removeCommentsGo, if_pos hc] at h
        exact List.mem_cons_of_mem c (ih h)
      · rw [removeCommentsGo, if_neg hc] at h
        rcases List.mem_cons.mp h with h1 | h2
        · exact h1 ▸ List.mem_cons_self c rest
        · exact List.mem_cons_of_mem c (ih h2)

theorem mem_collapseWsGo {x : Char} : ∀ {l : List Char} {b : Bool},
    x ∈ collapseWsGo l b → x ∈ l ∨ x = ' ' := by
  intro l
  induction l with
  | nil => intro b h; simp [collapseWsGo] at h
  | cons c rest ih =>
    intro b h
    by_cases hc : isSpaceRe c
    · cases b with
      | true =>
        rw [collapseWsGo, if_pos hc] at h
        rcases ih h with h1 | h2
        · exact Or.inl (List.mem_cons_of_mem c h1)
        · exact Or.inr h2
      | false =>
        rw [collapseWsGo, if_pos hc] at h
        rcases List.mem_cons.mp h with h1 | h2
        · exact Or.inr h1
        · rcases ih h2 with h3 | h4
          · exact Or.inl (List.mem_cons_of_mem c h3)
          · exact Or.inr h4
    · rw [collapseWsGo, if_neg hc] at h
      rcases List.mem_cons.mp h with h1 | h2
      · exact Or.inl (h1 ▸ List.mem_cons_self c rest)
      · rcases ih h2 with h3 | h4
        · exact Or.inl (List.mem_cons_of_mem c h3)
        · exact Or.inr h4

theorem mem_trimSpace {x : Char} {l : List Char} (h : x ∈ trimSpace l) : x ∈ l := by
  rw [trimSpace, List.mem_reverse] at h
  have h2 := (List.dropWhile_sublist isSpaceTrim).subset h
  rw [List.mem_reverse] at h2
  exact (List.dropWhile_sublist isSpaceTrim).subset h2

theorem mem_of_headQ {x : Char} {l : List Char} (h : l.head? = some x) : x ∈ l :=
  List.mem_of_mem_head? (by simp [h])

theorem balGo_of_ebbGo : ∀ (cs : List Char) (d : Int) (inStr esc : Bool) (out : List Char),
    ebbGo cs d inStr esc = some out → balGo out (d - 1) inStr esc = true := by
  intro cs
  induction cs with
  | nil => intro d inStr esc out h; simp [ebbGo] at h
  | cons c rest ih =>
    intro d inStr esc out h
    cases esc with
    | true =>
      simp only [ebbGo, if_true] at h
      obtain ⟨t, ht, rfl⟩ := Option.map_eq_some'.mp h
      simp only [balGo, if_true]
      exact ih d inStr false t ht
    | false =>
      by_cases hbs : c = '\\'
      · simp only [ebbGo, Bool.false_eq_true, if_false, if_pos hbs] at h
        obtain ⟨t, ht, rfl⟩ := Option.map_eq_some'.mp h
        simp only [balGo, Bool.false_eq_true, if_false, if_pos hbs]
        exact ih d inStr true t ht
      · by_cases hq : c = '"'
        · simp only [ebbGo, Bool.false_eq_true, if_false, if_neg hbs, if_pos hq] at h
          obtain ⟨t, ht, rfl⟩ := Option.map_eq_some'.mp h
          simp only [balGo, Bool.false_eq_true, if_false, if_neg hbs, if_pos hq]
          exact ih d (!inStr) false t ht
        · cases inStr with
          | true =>
            simp only [ebbGo, Bool.false_eq_true, if_false, if_neg hbs, if_neg hq,
              if_true] at h
            obtain ⟨t, ht, rfl⟩ := Option.map_eq_some'.mp h
            simp only [balGo, Bool.false_eq_true, if_false, if_neg hbs, if_neg hq,
              if_true]
            exact ih d true false t ht
          | false =>
            by_cases hbr : c = '{'
            · simp only [ebbGo, Bool.false_eq_true, if_false, if_neg hbs, if_neg hq,
                if_pos hbr] at h
              obtain ⟨t, ht, rfl⟩ := Option.map_eq_some'.mp h
              simp only [balGo, Bool.false_eq_true, if_false, if_neg hbs, if_neg hq,
                if_pos hbr]
              have e : d - 1 + 1 = d + 1 - 1 := by ring
              rw [e]
              exact ih (d + 1) false false t ht
            · by_cases hcl : c = '}'
              · simp only [ebbGo, Bool.false_eq_true, if_false, if_neg hbs, if_neg hq,
                  if_neg hbr, if_pos hcl] at h
                by_cases hd : d - 1 = 0
                · rw [if_pos hd] at h
                  obtain rfl : ([] : List Char) = out := Option.some.inj h
                  simp [balGo, hd]
                · rw [if_neg hd] at h
                  obtain ⟨t, ht, rfl⟩ := Option.map_eq_some'.mp h
                  simp only [balGo, Bool.false_eq_true, if_false, if_neg hbs, if_neg hq,
                    if_neg hbr, if_pos hcl, if_neg hd]
                  exact ih (d - 1) false false t ht
              · simp only [ebbGo, Bool.false_eq_true, if_false, if_neg hbs, if_neg hq,
                  if_neg hbr, if_neg hcl] at h
                obtain ⟨t, ht, rfl⟩ := Option.map_eq_some'.mp h
                simp only [balGo, Bool.false_eq_true, if_false, if_neg hbs, if_neg hq,
                  if_neg hbr, if_neg hcl]
                exact ih d false false t ht

theorem bracesBalanced_extractBalancedBlock {s : List Char} {p : Nat}
    (h : extractBalancedBlock s p ≠ []) :
    bracesBalanced (extractBalancedBlock s p) = true := by
  unfold extractBalancedBlock at h ⊢
  rcases hfi : firstIdxFrom s '{' p with _ | b
  · simp only [hfi] at h
    exact absurd rfl h
  · simp only [hfi] at h ⊢
    rcases heb : ebbGo (s.drop (b + 1)) 1 false false with _ | inner
    · simp only [heb] at h
      exact absurd rfl h
    · simp only [heb] at h ⊢
      have hb := balGo_of_ebbGo (s.drop (b + 1)) 1 false false inner heb
      simpa [bracesBalanced] using hb

theorem mem_fobBlocks2 {q b : List Char} {k : OpKind} {blocks : List (List Char)}
    (h : b ∈ fobBlocks2 q k blocks) :
    b ∈ blocks ∨ (∃ p, extractBalancedBlock q p = b ∧ b ≠ []) := by
  unfold fobBlocks2 at h
  rw [List.mem_append] at h
  rcases h with h | h
  · exact Or.inl h
  · rw [List.mem_filterMap] at h
    obtain ⟨p, _, hf⟩ := h
    split at hf
    · exact absurd hf (by simp)
    · exact Or.inr ⟨p, Option.some.inj hf, by
        rw [← Option.some.inj hf]; assumption⟩

theorem mem_fobStep {q b : List Char} {k : OpKind} {blocks : List (List Char)}
    (h : b ∈ fobStep q k blocks) :
    b ∈ blocks ∨ (∃ p, extractBalancedBlock q p = b ∧ b ≠ []) ∨ b = q := by
  unfold fobStep at h
  split at h
  · rw [List.mem_append] at h
    rcases h with h | h
    · rcases mem_fobBlocks2 h with h2 | h2
      · exact Or.inl h2
      · exact Or.inr (Or.inl h2)
    · exact Or.inr (Or.inr (List.mem_singleton.mp h))
  · rcases mem_fobBlocks2 h with h2 | h2
    · exact Or.inl h2
    · exact Or.inr (Or.inl h2)

theorem mem_fobGo {q b : List Char} : ∀ (kinds : List OpKind) (blocks : List (List Char)),
    b ∈ fobGo q kinds blocks →
    b ∈ blocks ∨ (∃ p, extractBalancedBlock q p = b ∧ b ≠ []) ∨ b = q := by
  intro kinds
  induction kinds with
  | nil => intro blocks h; exact Or.inl h
  | cons k rest ih =>
    intro blocks h
    rw [fobGo] at h
    rcases ih _ h with h2 | h2 | h2
    · exact mem_fobStep h2
    · exact Or.inr (Or.inl h2)
    · exact Or.inr (Or.inr h2)

theorem matchNamedAt_eq_none {s : List Char} (h : '{' ∉ s) (kw : List Char) (p : Nat) :
    matchNamedAt s kw p = none := by
  have hfi : ∀ i, firstIdxFrom s '{' i = none :=
    fun i => firstIdxFrom_eq_none (fun hm => h (List.drop_subset i s hm))
  simp [matchNamedAt, hfi, ite_self]

theorem scanNamed_eq_nil {s kw : List Char} (h : ∀ p, matchNamedAt s kw p = none) :
    ∀ (fuel p : Nat), scanNamed s kw fuel p = [] := by
  intro fuel
  induction fuel with
  | zero => intro p; rfl
  | succ n ih =>
    intro p
    rw [scanNamed, h p]
    split
    · rfl
    · exact ih (p + 1)

theorem anonMatches_eq_nil {s : List Char} (h : '{' ∉ s) : anonMatches s = [] := by
  rw [anonMatches, if_neg]
  intro hg
  exact h (List.get?_mem hg)

theorem trimmedStartsWithBrace_eq_false {s : List Char} (h : '{' ∉ s) :
    trimmedStartsWithBrace s = false := by
  rw [trimmedStartsWithBrace, beq_eq_false_iff_ne]
  intro he
  exact h (mem_trimSpace (mem_of_headQ he))

theorem fobStarts_eq_nil {q : List Char} (h : '{' ∉ q) (k : OpKind) :
    fobStarts q k = [] := by
  unfold fobStarts
  split
  · exact anonMatches_eq_nil h
  · exact scanNamed_eq_nil (matchNamedAt_eq_none h (opKeyword k)) _ 0

theorem fobStep_eq_self {q : List Char} (h : '{' ∉ q) (k : OpKind)
    (blocks : List (List Char)) : fobStep q k blocks = blocks := by
  have h2 : fobBlocks2 q k blocks = blocks := by
    rw [fobBlocks2, fobStarts_eq_nil h k]
    simp
  rw [fobStep, if_neg, h2]
  intro hc
  rw [trimmedStartsWithBrace_eq_false h] at hc
  exact absurd hc.2.2 (by simp)

theorem fobGo_eq_self {q : List Char} (h : '{' ∉ q) :
    ∀ (kinds : List OpKind) (blocks : List (List Char)), fobGo q kinds blocks = blocks := by
  intro kinds
  induction kinds with
  | nil => intro blocks; rfl
  | cons k rest ih =>
    intro blocks
    rw [fobGo, fobStep_eq_self h k, ih]

theorem noBrace_removeComments {l : List Char} (h : '{' ∉ l) :
    '{' ∉ removeComments l :=
  fun hm => h (mem_removeCommentsGo hm)

theorem noBrace_normalizeQ {l : List Char} (h : '{' ∉ l) : '{' ∉ normalizeQ l := by
  intro hm
  rcases mem_collapseWsGo (mem_trimSpace hm) with h2 | h2
  · exact h h2
  · exact absurd h2 (by simp)

theorem fieldOk_of_mem_tier1Go {s : List Char} :
    ∀ (fuel p : Nat) {w : List Char}, w ∈ tier1Go s fuel p → fieldOk w = true := by
  intro fuel
  induction fuel with
  | zero => intro p w h; simp [tier1Go] at h
  | succ n ih =>
    intro p w h
    rw [tier1Go] at h
    split at h
    · simp at h
    · split at h
      · split at h
        · rcases List.mem_cons.mp h with h1 | h2
          · subst h1; assumption
          · exact ih _ h2
        · exact ih _ h
      · exact ih _ h

theorem fieldOk_of_mem_tier1Fields {s w : List Char} (h : w ∈ tier1Fields s) :
    fieldOk w = true :=
  fieldOk_of_mem_tier1Go _ _ h

theorem fieldOk_of_mem_tier2Go :
    ∀ (lines : List (List Char)) (lvl : Int) {w : List Char},
      w ∈ tier2Go lines lvl → fieldOk w = true := by
  intro lines
  induction lines with
  | nil => intro lvl w h; simp [tier2Go] at h
  | cons line rest ih =>
    intro lvl w h
    rw [tier2Go] at h
    split at h
    · exact ih _ h
    · rw [List.mem_append] at h
      rcases h with h | h
      · split at h
        · split at h
          · split at h
            · rcases List.mem_cons.mp h with h1 | h2
              · subst h1; assumption
              · simp at h2
            · simp at h
          · simp at h
        · simp at h
      · exact ih _ h

theorem fieldOk_of_mem_tier2Fields {s w : List Char} (h : w ∈ tier2Fields s) :
    fieldOk w = true :=
  fieldOk_of_mem_tier2Go _ _ h

theorem fieldOk_of_mem_tier3Go {s : List Char} :
    ∀ (fuel p : Nat) {w : List Char}, w ∈ tier3Go s fuel p → fieldOk w = true := by
  intro fuel
  induction fuel with
  | zero => intro p w h; simp [tier3Go] at h
  | succ n ih =>
    intro p w h
    rw [tier3Go] at h
    split at h
    · simp at h
    · split at h
      · split at h
        · rcases List.mem_cons.mp h with h1 | h2
          · subst h1; assumption
          · exact ih _ h2
        · exact ih _ h
      · exact ih _ h

theorem fieldOk_of_mem_tier3Fields {s w : List Char} (h : w ∈ tier3Fields s) :
    fieldOk w = true :=
  fieldOk_of_mem_tier3Go _ _ h

theorem fieldOk_of_mem_parseRootFields {block w : List Char}
    (h : w ∈ parseRootFields block) : fieldOk w = true := by
  rw [parseRootFields] at h
  by_cases h1 : tier1Fields block = []
  · rw [if_pos h1] at h
    by_cases h2 : tier2Fields block = []
    · rw [if_pos h2] at h
      exact fieldOk_of_mem_tier3Fields h
    · rw [if_neg h2] at h
      exact fieldOk_of_mem_tier2Fields h
  · rw [if_neg h1] at h
    split at h
    · exact fieldOk_of_mem_tier3Fields h
    · exact fieldOk_of_mem_tier1Fields h

theorem foldl_append_parse (blocks : List (List Char)) (init : List (List Char)) :
    blocks.foldl (fun fields b => fields ++ parseRootFields b) init
      = init ++ (blocks.map parseRootFields).flatten := by
  induction blocks generalizing init with
  | nil => simp
  | cons b rest ih => simp [ih, List.append_assoc]

theorem fieldOk_of_mem_extractOp {q w : List Char} {k : OpKind}
    (h : w ∈ extractRootFieldsFromOperation q k) : fieldOk w = true := by
  rw [extractRootFieldsFromOperation, foldl_append_parse] at h
  simp only [List.nil_append, List.mem_flatten, List.mem_map] at h
  obtain ⟨l, ⟨b, _, rfl⟩, hw⟩ := h
  exact fieldOk_of_mem_parseRootFields hw

theorem extractOp_eq_nil {q : List Char} (h : '{' ∉ normalizeQ q) (k : OpKind) :
    extractRootFieldsFromOperation q k = [] := by
  rw [extractRootFieldsFromOperation, foldl_append_parse]
  rcases k with _ | _ | _
  · simp [findOperationBlocks, fobGo_eq_self h]
  · simp [findOperationBlocks, fobGo_eq_self h]
  · simp

/-! ## Claims -/

/-- C1 counterexample: on `query Q { a { b { c } x { y } } }` the extracted
query fields are not just `a` — the nested field `x` (depth 1) also appears,
so the claim that only depth-0 names are returned is false on the code. -/
theorem trafico_c1_counterexample :
    (extract "query Q { a { b { c } x { y } } }").1 ≠ ["a"] := by decide

/-- C1 (amended): tier 1 of the Root Field Extractor matches any identifier
followed by a parenthesized-argument option and a brace group containing no
inner `}` — at any nesting depth, resuming after each match — so identifiers
of nested sub-selections can appear in the result; in particular the
document `query Q { a { b { c } x { y } } }` yields query fields
`["a", "x"]`, not only the root field `a`. -/
theorem trafico_c1 :
    extract "query Q { a { b { c } x { y } } }" = (["a", "x"], []) := by decide

/-- C2 counterexample: the named-operation pattern requires `\s+\w+` after
the keyword, so the keyword-but-unnamed document
`mutation { createThing(input: {a:1}) { id } }` produces no candidate block
and `extract` returns two empty sequences, not `([], ["createThing"])`. -/
theorem trafico_c2_counterexample :
    extract "mutation { createThing(input: {a:1}) { id } }" ≠ ([], ["createThing"]) := by
  decide

/-- C2 (amended): the Operation Block Locator's named pattern makes the
operation name mandatory (keyword, whitespace, then at least one word
character, then the first `{`): the unnamed document
`mutation { createThing(input: {a:1}) { id } }` yields `([], [])`, while
the named form `mutation M { createThing(input: {a:1}) { id } }` is located
and yields `([], ["createThing"])` — the brace inside the parenthesized
argument value does not corrupt the nesting count. -/
theorem trafico_c2 :
    extract "mutation { createThing(input: {a:1}) { id } }" = ([], []) ∧
    extract "mutation M { createThing(input: {a:1}) { id } }" = ([], ["createThing"]) :=
  ⟨by decide, by decide⟩

/-- C3 counterexample: for a document with both a leading anonymous block
and a named query block, the result is not only the named block's fields —
the anonymous block's fields are appended as well. -/
theorem trafico_c3_counterexample :
    (extract "{ a { x } } query Q { b { y } }").1 ≠ ["b"] := by decide

/-- C3 (amended): the anonymous regex scan (`^\s*\{`) runs whenever queries
are scanned on a document that begins with `{`, regardless of whether named
query blocks were already found — only the whole-document fallback is
guarded by "no blocks found so far" — so
`{ a { x } } query Q { b { y } }` returns the named block's fields followed
by the anonymous block's fields, `(["b", "a"], [])`.  Anonymous scanning is
never performed for mutations: a purely anonymous document contributes its
fields to the query side only, `(["a"], [])`. -/
theorem trafico_c3 :
    extract "{ a { x } } query Q { b { y } }" = (["b", "a"], []) ∧
    extract "{ a { x } }" = (["a"], []) :=
  ⟨by decide, by decide⟩

/-- C4 counterexample: on the text `{}` a `{` exists at offset 0 and the
counter returns to zero, yet the Brace Balancer returns the empty string —
emptiness of the result is not equivalent to "no `{` found or end-of-text
reached before closing". -/
theorem trafico_c4_counterexample :
    extractBalancedBlock "{}".data 0 = [] ∧ '{' ∈ "{}".data ∧
    bracesBalanced "{}".data = true := by decide

/-- C4 (amended): the Brace Balancer returns the slice strictly between the
first `{` at or after the offset and its matching `}` (exclusive of both),
with braces inside unescaped double-quoted strings not affecting the
counter; it returns the empty string whenever no `{` exists at or after the
offset (first conjunct, fully general) or end-of-text is reached before the
counter returns to zero (third conjunct) — but the result is also empty
when a balanced block is found whose inner content is empty, so emptiness
is a "no block or empty block" signal.  The second conjunct exercises a
block containing a string literal with braces and an escaped quote, and a
nested sub-block, returning exactly the inner slice. -/
theorem trafico_c4 :
    (∀ (s : List Char) (p : Nat), '{' ∉ s.drop p → extractBalancedBlock s p = []) ∧
    extractBalancedBlock
      ['{', ' ', '"', 'a', '{', '\\', '"', '}', 'b', '"', ' ', '{', ' ', 'c', ' ', '}', ' ', '}'] 0
      = [' ', '"', 'a', '{', '\\', '"', '}', 'b', '"', ' ', '{', ' ', 'c', ' ', '}', ' '] ∧
    extractBalancedBlock ['{', ' ', 'a', ' ', '{', ' ', 'b', ' ', '}'] 0 = [] := by
  refine ⟨?_, by decide, by decide⟩
  intro s p h
  unfold extractBalancedBlock
  rw [firstIdxFrom_eq_none h]

/-- C4 witness: the general no-brace conjunct of `trafico_c4` applied to the
concrete brace-free text `abc`. -/
theorem trafico_c4_witness : extractBalancedBlock "abc".data 0 = [] :=
  trafico_c4.1 "abc".data 0 (by decide)

/-- C5: for every document text containing no `{` character, `extract`
returns two empty sequences: comment stripping and whitespace normalization
introduce no brace, every operation pattern requires one, and the anonymous
fallback requires a leading `{`, so no block is ever located. -/
theorem trafico_c5 (doc : String) (h : '{' ∉ doc.data) : extract doc = ([], []) := by
  have hq : '{' ∉ normalizeQ (removeComments doc.data) :=
    noBrace_normalizeQ (noBrace_removeComments h)
  simp only [extract, extractResourceNames]
  rw [extractOp_eq_nil hq, extractOp_eq_nil hq]
  simp

/-- C5 witness: a brace-free document. -/
theorem trafico_c5_witness : extract "query Q" = ([], []) :=
  trafico_c5 "query Q" (by decide)

/-- C6: for every input document, no returned field name is
(case-insensitively) a reserved GraphQL keyword and no returned field name
begins with `@`: every tier of the Root Field Extractor appends a candidate
name only after the keyword/directive guard. -/
theorem trafico_c6 (doc f : String)
    (h : f ∈ (extract doc).1 ∨ f ∈ (extract doc).2) :
    isGraphQLKeyword f.data = false ∧ f.data.head? ≠ some '@' := by
  have hex : ∃ w, fieldOk w = true ∧ f.data = w := by
    rcases h with h | h
    · simp only [extract, extractResourceNames, List.mem_map] at h
      obtain ⟨w, hw, rfl⟩ := h
      exact ⟨w, fieldOk_of_mem_extractOp hw, rfl⟩
    · simp only [extract, extractResourceNames, List.mem_map] at h
      obtain ⟨w, hw, rfl⟩ := h
      exact ⟨w, fieldOk_of_mem_extractOp hw, rfl⟩
  obtain ⟨w, hok, hw⟩ := hex
  rw [hw]
  simp only [fieldOk, Bool.and_eq_true, Bool.not_eq_true'] at hok
  refine ⟨hok.1, ?_⟩
  have h2 := hok.2
  rwa [beq_eq_false_iff_ne] at h2

/-- C6 witness: the invariant instantiated at a concrete document and its
returned query field `a`. -/
theorem trafico_c6_witness :
    isGraphQLKeyword "a".data = false ∧ "a".data.head? ≠ some '@' :=
  trafico_c6 "query Q { a { x } }" "a" (Or.inl (by decide))

/-- C7: the Root Field Extractor's result equals the output of exactly one
tier — tier 1 when it is non-empty, otherwise tier 2 when it is non-empty,
otherwise tier 3 — fields of different tiers are never merged. -/
theorem trafico_c7 (block : List Char) :
    (tier1Fields block ≠ [] ∧ parseRootFields block = tier1Fields block) ∨
    (tier1Fields block = [] ∧ tier2Fields block ≠ [] ∧
      parseRootFields block = tier2Fields block) ∨
    (tier1Fields block = [] ∧ tier2Fields block = [] ∧
      parseRootFields block = tier3Fields block) := by
  by_cases h1 : tier1Fields block = []
  · by_cases h2 : tier2Fields block = []
    · refine Or.inr (Or.inr ⟨h1, h2, ?_⟩)
      simp only [parseRootFields]
      rw [if_pos h1, if_pos h2]
    · refine Or.inr (Or.inl ⟨h1, h2, ?_⟩)
      simp only [parseRootFields]
      rw [if_pos h1, if_neg h2]
  · refine Or.inl ⟨h1, ?_⟩
    simp only [parseRootFields]
    rw [if_neg h1, if_neg h1]

/-- C8: each operation kind's result is the concatenation, in document
order and without deduplication, of the root fields of every located block
of that kind (first two conjuncts, fully general); in particular
`query A { x { n } } query B { x { n } y { n } }` yields query fields
`["x", "x", "y"]`. -/
theorem trafico_c8 :
    (∀ q : List Char, extractRootFieldsFromOperation q OpKind.query =
      ((findOperationBlocks (normalizeQ q)
        [OpKind.query, OpKind.anonymous]).map parseRootFields).flatten) ∧
    (∀ q : List Char, extractRootFieldsFromOperation q OpKind.mutation =
      ((findOperationBlocks (normalizeQ q)
        [OpKind.mutation]).map parseRootFields).flatten) ∧
    extract "query A { x { n } } query B { x { n } y { n } }" = (["x", "x", "y"], []) := by
  refine ⟨fun q => ?_, fun q => ?_, by decide⟩
  · rw [extractRootFieldsFromOperation, foldl_append_parse]
    simp
  · rw [extractRootFieldsFromOperation, foldl_append_parse]
    simp

/-- C9 counterexample: the document `{ a { x }` (unterminated) defeats the
claim — the Brace Balancer fails on it, so the anonymous whole-document
fallback hands the entire, brace-unbalanced document to the Root Field
Extractor, which extracts `a` from it. -/
theorem trafico_c9_counterexample :
    findOperationBlocks ['{', ' ', 'a', ' ', '{', ' ', 'x', ' ', '}']
      [OpKind.query, OpKind.anonymous]
      = [['{', ' ', 'a', ' ', '{', ' ', 'x', ' ', '}']] ∧
    bracesBalanced ['{', ' ', 'a', ' ', '{', ' ', 'x', ' ', '}'] = false ∧
    extract (String.mk ['{', ' ', 'a', ' ', '{', ' ', 'x', ' ', '}']) = (["a"], []) :=
  ⟨by decide, by decide, by decide⟩

/-- C9 (amended): every non-empty result of the Brace Balancer has balanced
braces (first conjunct), and every block produced by the Operation Block
Locator is either such a balanced result or — via the anonymous
whole-document fallback — the entire normalized document, which may be
unbalanced (second conjunct). -/
theorem trafico_c9 :
    (∀ (s : List Char) (p : Nat), extractBalancedBlock s p ≠ [] →
      bracesBalanced (extractBalancedBlock s p) = true) ∧
    (∀ (q : List Char) (kinds : List OpKind) (b : List Char),
      b ∈ findOperationBlocks q kinds → bracesBalanced b = true ∨ b = q) := by
  constructor
  · intro s p h
    exact bracesBalanced_extractBalancedBlock h
  · intro q kinds b h
    rw [findOperationBlocks] at h
    rcases mem_fobGo kinds [] h with h2 | h2 | h2
    · simp at h2
    · obtain ⟨p, hp, hne⟩ := h2
      rw [← hp] at hne ⊢
      exact Or.inl (bracesBalanced_extractBalancedBlock hne)
    · exact Or.inr h2

/-- C9 witness: both conjuncts of `trafico_c9` at concrete inputs — a
balanced block extracted from `{a}`, and the fallback block of the
unterminated document `{ a { x }`. -/
theorem trafico_c9_witness :
    bracesBalanced (extractBalancedBlock "{a}".data 0) = true ∧
    (bracesBalanced ['{', ' ', 'a', ' ', '{', ' ', 'x', ' ', '}'] = true ∨
      (['{', ' ', 'a', ' ', '{', ' ', 'x', ' ', '}'] : List Char)
        = ['{', ' ', 'a', ' ', '{', ' ', 'x', ' ', '}']) := by
  constructor
  · exact trafico_c9.1 "{a}".data 0 (by decide)
  · exact trafico_c9.2 ['{', ' ', 'a', ' ', '{', ' ', 'x', ' ', '}']
      [OpKind.query, OpKind.anonymous] ['{', ' ', 'a', ' ', '{', ' ', 'x', ' ', '}']
      (by decide)

/-- C10 counterexample: the all-leaf block `query Q { on b c }` returns two
field names, `["b", "c"]`, not at most one — when the leading identifier of
the collapsed line is a keyword, the line-scan tier yields nothing and the
depth-collapse tier returns every remaining root identifier. -/
theorem trafico_c10_counterexample :
    extract "query Q { on b c }" = (["b", "c"], []) ∧
    1 < (extract "query Q { on b c }").1.length :=
  ⟨by decide, by decide⟩

/-- C10 (amended): whitespace normalization collapses each block to a single
line, so for a block whose root level contains only leaf fields the
line-scan tier returns at most its one leading identifier — `query Q { a b c }`
yields `["a"]`, dropping `b` and `c` — but when that leading identifier is
excluded as a keyword the line-scan tier returns nothing and the
depth-collapse tier instead returns all remaining non-keyword root
identifiers: `query Q { on b c }` yields `["b", "c"]`. -/
theorem trafico_c10 :
    extract "query Q { a b c }" = (["a"], []) ∧
    extract "query Q { on b c }" = (["b", "c"], []) :=
  ⟨by decide, by decide⟩
